import Mathlib

/-!
Verification of the GRAO tables processing program (grao_tables_parsing.py).

Strings are embedded as `List Char`; Python `str.find`/`str.replace`/`dict`
operations become explicit list functions.  Fallible code returns
`Except`/`Option`.  Each numbered section embeds one component of the
source file; the theorems at the end settle the specification claims.
-/

set_option maxRecDepth 4000

/-! ### Generic association-list lookup (Python `dict` access, insertion = cons) -/

def alookup {α β : Type} [DecidableEq α] (k : α) : List (α × β) → Option β
  | [] => none
  | (a, b) :: t => if a = k then some b else alookup k t

theorem alookup_mem {α β : Type} [DecidableEq α] {k : α} {v : β} :
    ∀ {l : List (α × β)}, alookup k l = some v → (k, v) ∈ l := by
  intro l
  induction l with
  | nil => intro h; simp [alookup] at h
  | cons p t ih =>
    cases p with
    | mk a b =>
      intro h
      by_cases hp : a = k
      · simp only [alookup, hp, if_true, Option.some.injEq] at h
        subst hp; subst h; exact List.mem_cons_self _ _
      · rw [alookup, if_neg hp] at h
        exact List.mem_cons_of_mem _ (ih h)

theorem alookup_cons_ne {α β : Type} [DecidableEq α] {k a : α} {b : β} (l : List (α × β))
    (h : a ≠ k) : alookup k ((a, b) :: l) = alookup k l := by
  simp [alookup, h]

theorem alookup_cons_self {α β : Type} [DecidableEq α] {k : α} {b : β} (l : List (α × β)) :
    alookup k ((k, b) :: l) = some b := by
  simp [alookup]

/-! ### Python string primitives on `List Char` -/

/-- Python `s.replace(a, b)` for single characters: a character-wise map. -/
def replaceAll (s : List Char) (a b : Char) : List Char :=
  s.map (fun c => if c = a then b else c)

/-- Index of the first occurrence of a character (Python `s.find(c)`, `None` for `-1`). -/
def findIdxFirst (c : Char) : List Char → Option Nat
  | [] => none
  | x :: t => if x = c then some 0 else (findIdxFirst c t).map (· + 1)

/-- Python `s.find(c, start)` as an absolute index (`None` for `-1`). -/
def findFrom (s : List Char) (c : Char) (start : Nat) : Option Nat :=
  (findIdxFirst c (s.drop start)).map (· + start)

theorem mem_replaceAll_self {s : List Char} {a b : Char} (hab : b ≠ a) :
    a ∉ replaceAll s a b := by
  intro hmem
  simp only [replaceAll, List.mem_map] at hmem
  obtain ⟨c, _, hc⟩ := hmem
  by_cases h : c = a
  · rw [if_pos h] at hc; exact hab hc
  · rw [if_neg h] at hc; exact h hc

theorem replaceAll_preserves {a b c x : Char}
    (ha : a ≠ c) (hb : b ≠ c) :
    ((if x = a then b else x) = c) = (x = c) := by
  by_cases h : x = a
  · simp [h, hb, ha]
  · simp [h]

theorem findIdxFirst_replaceAll {a b c : Char} (ha : a ≠ c) (hb : b ≠ c) :
    ∀ (s : List Char),
      findIdxFirst c (replaceAll s a b) = findIdxFirst c s := by
  intro s
  induction s with
  | nil => rfl
  | cons x t ih =>
    simp only [replaceAll, List.map_cons] at *
    by_cases hxa : x = a
    · rw [if_pos hxa]
      rw [findIdxFirst, findIdxFirst, if_neg hb, if_neg (hxa ▸ ha), ih]
    · rw [if_neg hxa]
      rw [findIdxFirst, findIdxFirst, ih]

theorem mem_replaceAll_iff {a b c : Char} (ha : a ≠ c) (hb : b ≠ c) (s : List Char) :
    c ∈ replaceAll s a b ↔ c ∈ s := by
  simp only [replaceAll, List.mem_map]
  constructor
  · rintro ⟨x, hx, hxc⟩
    by_cases h : x = a
    · simp [h] at hxc; exact absurd hxc hb
    · simp [h] at hxc; rwa [hxc] at hx
  · intro hc
    refine ⟨c, hc, ?_⟩
    simp [ha.symm]

/-! ### Name Normalizer (`fix_names`, source lines 184–252) -/

/-- The fixed case-sensitive correction table of `fix_names` (source lines 196–245).
Python dict literals with a repeated key keep the last binding; the one repeated
key (`СТОЯН ЗАИМОВО`) has identical values, so order is immaterial. -/
def namesTable : List (List Char × List Char) :=
  [ ("БОБОВДОЛ".toList, "БОБОВ ДОЛ".toList),
    ("ВЪЛЧИДОЛ".toList, "ВЪЛЧИ ДОЛ".toList),
    ("КАПИТАН ПЕТКО ВОЙВО".toList, "КАПИТАН ПЕТКО ВОЙВОДА".toList),
    ("ДОБРИЧКА".toList, "ДОБРИЧ-СЕЛСКА".toList),
    ("ДОБРИЧ СЕЛСКА".toList, "ДОБРИЧ-СЕЛСКА".toList),
    ("БЕРАИНЦИ".toList, "БЕРАЙНЦИ".toList),
    ("ФЕЛТФЕБЕЛ ДЕНКОВО".toList, "ФЕЛДФЕБЕЛ ДЕНКОВО".toList),
    ("УРУЧОВЦИ".toList, "УРУЧЕВЦИ".toList),
    ("ПОЛИКРАЙЩЕ".toList, "ПОЛИКРАИЩЕ".toList),
    ("КАМЕШИЦА".toList, "КАМЕЩИЦА".toList),
    ("БОГДАНОВДОЛ".toList, "БОГДАНОВ ДОЛ".toList),
    ("СИНЬО БЬРДО".toList, "СИНЬО БЪРДО".toList),
    ("ЗЕЛЕН ДОЛ".toList, "ЗЕЛЕНДОЛ".toList),
    ("МАРИКОСТЕНОВО".toList, "МАРИКОСТИНОВО".toList),
    ("САНСТЕФАНО".toList, "САН-СТЕФАНО".toList),
    ("САН СТЕФАНО".toList, "САН-СТЕФАНО".toList),
    ("ПЕТРОВДОЛ".toList, "ПЕТРОВ ДОЛ".toList),
    ("ЧАПАЕВО".toList, "ЦАРСКИ ИЗВОР".toList),
    ("ЕЛОВДОЛ".toList, "ЕЛОВ ДОЛ".toList),
    ("В. ТЪРНОВО".toList, "ВЕЛИКО ТЪРНОВО".toList),
    ("В.ТЪРНОВО".toList, "ВЕЛИКО ТЪРНОВО".toList),
    ("ГЕНЕРАЛ-ТОШОВО".toList, "ГЕНЕРАЛ ТОШЕВО".toList),
    ("ГЕНЕРАЛ ТОШОВО".toList, "ГЕНЕРАЛ ТОШЕВО".toList),
    ("ГЕНЕРАЛ-ТОШЕВО".toList, "ГЕНЕРАЛ ТОШЕВО".toList),
    ("БЕДЖДЕНЕ".toList, "БЕДЖЕНЕ".toList),
    ("ТАЙМИШЕ".toList, "ТАЙМИЩЕ".toList),
    ("СТОЯН ЗАИМОВО".toList, "СТОЯН-ЗАИМОВО".toList),
    ("ДАСКАЛ АТАНАСОВО".toList, "ДАСКАЛ-АТАНАСОВО".toList),
    ("СЛАВЕИНО".toList, "СЛАВЕЙНО".toList),
    ("КРАЛЕВДОЛ".toList, "КРАЛЕВ ДОЛ".toList),
    ("ФЕЛДФЕБЕЛ ДЯНКОВО".toList, "ФЕЛДФЕБЕЛ ДЕНКОВО".toList),
    ("ДЛЪХЧЕВО САБЛЯР".toList, "ДЛЪХЧЕВО-САБЛЯР".toList),
    ("ГОЛЕМ ВЪРБОВНИК".toList, "ГОЛЯМ ВЪРБОВНИК".toList),
    ("ПОЛКОВНИК ЖЕЛЕЗОВО".toList, "ПОЛКОВНИК ЖЕЛЯЗОВО".toList),
    ("ДОБРИЧ ГРАД".toList, "ДОБРИЧ".toList),
    ("ЦАР ПЕТРОВО".toList, "ЦАР-ПЕТРОВО".toList),
    ("ВЪЛЧАНДОЛ".toList, "ВЪЛЧАН ДОЛ".toList),
    ("ПАНАГЮРСКИ КОЛОНИ".toList, "ПАНАГЮРСКИ КОЛОНИИ".toList),
    ("ГОРСКИ ГОРЕН ТРЪМБЕ".toList, "ГОРСКИ ГОРЕН ТРЪМБЕШ".toList),
    ("ГОРСКИ ДОЛЕН ТРЪМБЕ".toList, "ГОРСКИ ДОЛЕН ТРЪМБЕШ".toList),
    ("ГЕНЕРАЛ-КАНТАРДЖИЕВ".toList, "ГЕНЕРАЛ КАНТАРДЖИЕВО".toList),
    ("ГЕНЕРАЛ КАНТАРДЖИЕВ".toList, "ГЕНЕРАЛ КАНТАРДЖИЕВО".toList),
    ("АЛЕКСАНДЪР СТАМБОЛИ".toList, "АЛЕКСАНДЬР СТАМБОЛИЙСКИ".toList),
    ("ПОЛКОВНИК-ЛАМБРИНОВ".toList, "ПОЛКОВНИК ЛАМБРИНОВО".toList),
    ("ПОЛКОВНИК ЛАМБРИНОВ".toList, "ПОЛКОВНИК ЛАМБРИНОВО".toList),
    ("ПОЛКОВНИК-СЕРАФИМОВ".toList, "ПОЛКОВНИК СЕРАФИМОВО".toList),
    ("ПОЛКОВНИК СЕРАФИМОВ".toList, "ПОЛКОВНИК СЕРАФИМОВО".toList) ]

/-- Step 1 of `fix_names` (source lines 186–192): if the first `Ь` is not
immediately followed by the next `О`, substitute `Ь` by `Ъ` everywhere.
Python's `find` returning `-1` (no `О` after the `Ь`) also triggers the
substitution, since `-1 != prob_pos + 1`. -/
def yerFix (name : List Char) : List Char :=
  match findIdxFirst 'Ь' name with
  | none => name
  | some p =>
    match findFrom name 'О' p with
    | some o => if o = p + 1 then name else replaceAll name 'Ь' 'Ъ'
    | none => replaceAll name 'Ь' 'Ъ'

/-- Step 2 of `fix_names` (source lines 247–248): replace every hyphen by a space. -/
def dehyphen (s : List Char) : List Char :=
  if '-' ∈ s then replaceAll s '-' ' ' else s

/-- `fix_names` (source lines 184–252): encoding repair, hyphen removal, then
the exact-match correction table. -/
def fix_names (name : List Char) : List Char :=
  match alookup (dehyphen (yerFix name)) namesTable with
  | some v => v
  | none => dehyphen (yerFix name)

example : fix_names "АЛЕКСАНДЪР СТАМБОЛИ".toList = "АЛЕКСАНДЬР СТАМБОЛИЙСКИ".toList := by decide
example : fix_names "АЛЕКСАНДЬР СТАМБОЛИЙСКИ".toList = "АЛЕКСАНДЪР СТАМБОЛИЙСКИ".toList := by decide
example : fix_names "БОБОВДОЛ".toList = "БОБОВ ДОЛ".toList := by decide
example : fix_names "СИНЬО БЬРДО".toList = "СИНЬО БЪРДО".toList := by decide

/-! ### Idempotence analysis of `fix_names` -/

theorem findIdxFirst_eq_none_iff {c : Char} : ∀ {s : List Char},
    findIdxFirst c s = none ↔ c ∉ s := by
  intro s
  induction s with
  | nil => simp [findIdxFirst]
  | cons x t ih =>
    by_cases h : x = c
    · simp [findIdxFirst, h]
    · simp only [findIdxFirst, if_neg h, List.mem_cons, Option.map_eq_none']
      rw [ih]
      constructor
      · intro hn hmem
        rcases hmem with he | ht
        · exact h he.symm
        · exact hn ht
      · intro hmem hc
        exact hmem (Or.inr hc)

theorem yerFix_of_not_mem {s : List Char} (h : 'Ь' ∉ s) : yerFix s = s := by
  rw [yerFix, findIdxFirst_eq_none_iff.mpr h]

theorem findFrom_replaceAll {a b c : Char} (ha : a ≠ c) (hb : b ≠ c)
    (s : List Char) (p : Nat) :
    findFrom (replaceAll s a b) c p = findFrom s c p := by
  rw [findFrom, findFrom]
  have hdrop : (replaceAll s a b).drop p = replaceAll (s.drop p) a b := by
    rw [replaceAll, replaceAll]
    exact (List.map_drop _ s p).symm
  rw [hdrop, findIdxFirst_replaceAll ha hb]

theorem dehyphen_no_hyphen (s : List Char) : '-' ∉ dehyphen s := by
  rw [dehyphen]
  by_cases h : '-' ∈ s
  · rw [if_pos h]
    exact mem_replaceAll_self (by decide)
  · rw [if_neg h]
    exact h

theorem dehyphen_of_not_mem {s : List Char} (h : '-' ∉ s) : dehyphen s = s := by
  rw [dehyphen, if_neg h]

theorem mem_dehyphen_iff {c : Char} (h1 : '-' ≠ c) (h2 : ' ' ≠ c) (s : List Char) :
    c ∈ dehyphen s ↔ c ∈ s := by
  rw [dehyphen]
  by_cases h : '-' ∈ s
  · rw [if_pos h]
    exact mem_replaceAll_iff h1 h2 s
  · rw [if_neg h]

/-- The first step of `fix_names` either expels every `Ь`, or leaves the name
untouched because the first `Ь` is immediately followed by the next `О`. -/
theorem yerFix_cases (x : List Char) :
    'Ь' ∉ yerFix x ∨
      (yerFix x = x ∧ ∃ p, findIdxFirst 'Ь' x = some p ∧ findFrom x 'О' p = some (p + 1)) := by
  rcases h1 : findIdxFirst 'Ь' x with _ | p
  · left
    rw [yerFix, h1]
    exact findIdxFirst_eq_none_iff.mp h1
  · rcases h2 : findFrom x 'О' p with _ | o
    · left
      simp only [yerFix, h1, h2]
      exact mem_replaceAll_self (by decide)
    · by_cases ho : o = p + 1
      · right
        subst ho
        exact ⟨by simp [yerFix, h1, h2], p, rfl, h2⟩
      · left
        simp only [yerFix, h1, h2, if_neg ho]
        exact mem_replaceAll_self (by decide)

theorem yerFix_dehyphen_yerFix (x : List Char) :
    yerFix (dehyphen (yerFix x)) = dehyphen (yerFix x) := by
  rcases yerFix_cases x with h | ⟨hfix, p, h1, h2⟩
  · exact yerFix_of_not_mem (fun hmem =>
      h ((mem_dehyphen_iff (by decide) (by decide) _).mp hmem))
  · rw [hfix]
    by_cases hd : '-' ∈ x
    · rw [dehyphen, if_pos hd]
      have e1 : findIdxFirst 'Ь' (replaceAll x '-' ' ') = some p := by
        rw [findIdxFirst_replaceAll (by decide) (by decide), h1]
      have e2 : findFrom (replaceAll x '-' ' ') 'О' p = some (p + 1) := by
        rw [findFrom_replaceAll (by decide) (by decide), h2]
      simp [yerFix, e1, e2]
    · rw [dehyphen, if_neg hd]
      simp [yerFix, h1, h2]

theorem dehyphen_dehyphen (s : List Char) : dehyphen (dehyphen s) = dehyphen s :=
  dehyphen_of_not_mem (dehyphen_no_hyphen s)

/-- Every value of the correction table except `АЛЕКСАНДЬР СТАМБОЛИЙСКИ` is a
fixed point of `fix_names`.  (That one value contains a stray `Ь` that a second
pass rewrites to `Ъ`.) -/
theorem namesTable_values_fixed :
    ∀ p ∈ namesTable, p.2 ≠ "АЛЕКСАНДЬР СТАМБОЛИЙСКИ".toList → fix_names p.2 = p.2 := by
  decide

theorem fix_names_stable_of_unlisted {x : List Char}
    (hl : alookup (dehyphen (yerFix x)) namesTable = none) :
    fix_names (dehyphen (yerFix x)) = dehyphen (yerFix x) := by
  rw [fix_names, yerFix_dehyphen_yerFix, dehyphen_dehyphen, hl]

/-! ### Layout Classifier (`Configuration._data_tuple_from_entry`, source lines 155–162) -/

inductive HeaderEnum : Type
  | Old
  | New
deriving DecidableEq

inductive TableTypeEnum : Type
  | Quarterly
  | Yearly
deriving DecidableEq

structure DataTuple : Type where
  data : List Char
  header_type : HeaderEnum
  table_type : TableTypeEnum
deriving DecidableEq

def isDigitChar (c : Char) : Bool := ('0' ≤ c) && (c ≤ '9')

/-- Does the `date_group` regex `\d{2}-\d{4}` match at the head of `s`? -/
def dateGroupAt (s : List Char) : Bool :=
  match s with
  | a :: b :: h :: c :: d :: e :: f :: _ =>
      isDigitChar a && isDigitChar b && (h == '-') &&
        isDigitChar c && isDigitChar d && isDigitChar e && isDigitChar f
  | _ => false

/-- `regex.search(date_group, entry) is not None`: the pattern matches somewhere. -/
def hasDateGroup : List Char → Bool
  | [] => false
  | c :: t => dateGroupAt (c :: t) || hasDateGroup t

def digitVal (c : Char) : Nat := c.toNat - '0'.toNat

/-- Does the `year_group` regex `\d{4}` match at the head of `s`?  If so, the
numeric value of the captured group. -/
def yearAt (s : List Char) : Option Nat :=
  match s with
  | a :: b :: c :: d :: _ =>
      if isDigitChar a && isDigitChar b && isDigitChar c && isDigitChar d then
        some (((digitVal a * 10 + digitVal b) * 10 + digitVal c) * 10 + digitVal d)
      else none
  | _ => none

/-- `regex.search(year_group, entry)`: leftmost match of `\d{4}`, as `int(group(1))`. -/
def findYearGroup : List Char → Option Nat
  | [] => none
  | c :: t =>
    match yearAt (c :: t) with
    | some y => some y
    | none => findYearGroup t

/-- `Configuration._data_tuple_from_entry` (source lines 155–162).  When neither
date pattern matches, the Python function falls off the end and returns `None`;
no exception of any kind is raised. -/
def data_tuple_from_entry (entry : List Char) : Option DataTuple :=
  if hasDateGroup entry then some ⟨entry, HeaderEnum.New, TableTypeEnum.Quarterly⟩
  else
    match findYearGroup entry with
    | some y =>
        some ⟨entry, if 2005 < y then HeaderEnum.New else HeaderEnum.Old, TableTypeEnum.Yearly⟩
    | none => none

example : data_tuple_from_entry "table_2004".toList =
    some ⟨"table_2004".toList, HeaderEnum.Old, TableTypeEnum.Yearly⟩ := by decide
example : data_tuple_from_entry "t_06-2021.html".toList =
    some ⟨"t_06-2021.html".toList, HeaderEnum.New, TableTypeEnum.Quarterly⟩ := by decide
example : data_tuple_from_entry "abc".toList = none := by decide

/-! ### Old-format header state machine (`parse_header_line`, source lines 399–423) -/

/-- Python `s.strip()` for the space-separated name fragments. -/
def pyStrip (s : List Char) : List Char :=
  ((s.dropWhile (fun c => c = ' ')).reverse.dropWhile (fun c => c = ' ')).reverse

structure MunicipalityIdentifier : Type where
  region : List Char
  municipality : List Char
deriving DecidableEq

/-- One Old-format call of `parse_header_line` (source lines 411–421).  The
function-local persistent variable `parse_header_line.region` is the explicit
state `st` (`none` = seeking a region header, `some reg` = region buffered);
the compiled `old_reg`/`old_mun` patterns of the singleton registry are the
matcher parameters `searchReg`/`searchMun` (returning the captured group).
Result: (new state, emitted header). -/
def parse_header_line_old (searchReg searchMun : List Char → Option (List Char))
    (st : Option (List Char)) (line : List Char) :
    Option (List Char) × Option MunicipalityIdentifier :=
  match st with
  | none => (searchReg line, none)
  | some reg =>
    match searchMun line with
    | some mun => (none, some ⟨fix_names (pyStrip reg), fix_names (pyStrip mun)⟩)
    | none => (none, none)

/-! ### Record Assembler (`parssed_lines_to_full_info_list`, source lines 440–466) -/

/-- The inner `while current_mun < settlement_keys[sk_index] < next_mun` loop.
The cursor `sk_index` is represented by the remaining suffix of the
settlement-position list; evaluating the loop condition when the cursor is past
the end (Python `settlement_keys[sk_index]` with `sk_index == len`) raises
`IndexError`, modeled as `.error ()`.  Returns the (header, row) attachments
made for this header pair together with the remaining suffix. -/
def consumeRows (cur nxt : Nat) : List Nat → Except Unit (List (Nat × Nat) × List Nat)
  | [] => .error ()
  | r :: rest =>
    if cur < r ∧ r < nxt then
      match consumeRows cur nxt rest with
      | .error e => .error e
      | .ok (acc, rem) => .ok ((cur, r) :: acc, rem)
    else .ok ([], r :: rest)

/-- The outer `for current_mun, next_mun in reg_keys_pairs` loop. -/
def assembleGo : List (Nat × Nat) → List Nat → Except Unit (List (Nat × Nat))
  | [], _ => .ok []
  | (cur, nxt) :: ps, rows =>
    match consumeRows cur nxt rows with
    | .error e => .error e
    | .ok (acc, rem) => (assembleGo ps rem).map (fun l => acc ++ l)

/-- `zip(reg_keys[:-1], reg_keys[1:])`: consecutive header-position pairs. -/
def pairsConsec (l : List Nat) : List (Nat × Nat) := l.zip l.tail

/-- `parssed_lines_to_full_info_list` (source lines 440–466) restricted to line
positions: which settlement-row position gets attached to which header
position.  (The construction of each `FullSettlementInfo` from the two
dictionaries is a pointwise lookup at the attached positions.) -/
def parssed_lines_assemble (headers rows : List Nat) : Except Unit (List (Nat × Nat)) :=
  assembleGo (pairsConsec headers) rows

example : parssed_lines_assemble [2, 10, 20] [5, 15, 25] =
    .ok [(2, 5), (10, 15)] := rfl
example : parssed_lines_assemble [2, 10, 20] [1, 5, 15, 25] = .ok [] := rfl
example : parssed_lines_assemble [2, 10, 20] [5, 15] = .error () := rfl
example : parssed_lines_assemble [2, 10] [] = .error () := rfl

/-! ### Termination analysis of the Record Assembler -/

theorem consumeRows_ok {cur nxt : Nat} : ∀ {rows : List Nat} {acc rem},
    consumeRows cur nxt rows = .ok (acc, rem) →
    (∃ r rest, rem = r :: rest ∧ ¬(cur < r ∧ r < nxt)) ∧ rem <:+ rows := by
  intro rows
  induction rows with
  | nil => intro acc rem h; simp [consumeRows] at h
  | cons r rest ih =>
    intro acc rem h
    rw [consumeRows] at h
    by_cases hc : cur < r ∧ r < nxt
    · rw [if_pos hc] at h
      cases he : consumeRows cur nxt rest with
      | error e => rw [he] at h; cases h
      | ok p =>
        cases p with
        | mk acc' rem' =>
          rw [he] at h
          simp only [Except.ok.injEq, Prod.mk.injEq] at h
          obtain ⟨h1, h2⟩ := h
          subst h2
          obtain ⟨hex, hsuf⟩ := ih he
          exact ⟨hex, hsuf.trans (List.suffix_cons r rest)⟩
    · rw [if_neg hc] at h
      simp only [Except.ok.injEq, Prod.mk.injEq] at h
      obtain ⟨h1, h2⟩ := h
      subst h2
      exact ⟨⟨r, rest, rfl, hc⟩, List.suffix_refl _⟩

/-- If every settlement row lies strictly inside some consecutive header pair,
the assembler's cursor consumes all rows and the next loop-condition evaluation
indexes past the end: the run raises. -/
theorem assembleGo_error_of_all_inside :
    ∀ (hs : List Nat), ∀ (rows : List Nat), List.Sorted (· < ·) hs →
      List.Sorted (· < ·) rows → rows ≠ [] →
      (∀ r ∈ rows, ∃ a b, (a, b) ∈ pairsConsec hs ∧ a < r ∧ r < b) →
      assembleGo (pairsConsec hs) rows = .error () := by
  intro hs
  induction hs with
  | nil =>
    intro rows _ _ hne hin
    obtain ⟨r, hr⟩ := List.exists_mem_of_ne_nil rows hne
    obtain ⟨a, b, hab, _⟩ := hin r hr
    simp [pairsConsec] at hab
  | cons h0 t ih =>
    intro rows hsort hrsort hne hin
    cases t with
    | nil =>
      obtain ⟨r, hr⟩ := List.exists_mem_of_ne_nil rows hne
      obtain ⟨a, b, hab, _⟩ := hin r hr
      simp [pairsConsec] at hab
    | cons h1 t' =>
      have hpc : pairsConsec (h0 :: h1 :: t') = (h0, h1) :: pairsConsec (h1 :: t') := rfl
      rw [hpc]
      have hsort' : List.Sorted (· < ·) (h1 :: t') := hsort.of_cons
      cases hcr : consumeRows h0 h1 rows with
      | error e => cases e; simp only [assembleGo, hcr]
      | ok p =>
        cases p with
        | mk acc rem =>
          obtain ⟨⟨r, rest', hrem, hout⟩, hsuf⟩ := consumeRows_ok hcr
          have hremsort : List.Sorted (· < ·) rem := hrsort.sublist hsuf.sublist
          have hmemrem : ∀ x ∈ rem, x ∈ rows := fun x hx => hsuf.sublist.subset hx
          have hrrows : r ∈ rows := hmemrem r (hrem ▸ List.mem_cons_self r rest')
          obtain ⟨a, b, hab, har, hrb⟩ := hin r hrrows
          rw [hpc] at hab
          have hh1r : h1 < r := by
            rcases List.mem_cons.mp hab with heq | htail
            · exfalso
              obtain ⟨ha0, hb1⟩ := Prod.mk.injEq a b h0 h1 ▸ heq
              exact hout ⟨ha0 ▸ har, hb1 ▸ hrb⟩
            · have hmem2 := List.of_mem_zip htail
              have hh1a : h1 ≤ a := by
                rcases List.mem_cons.mp hmem2.1 with he | ht
                · exact he ▸ le_refl h1
                · exact le_of_lt ((List.sorted_cons.mp hsort').1 a ht)
              exact lt_of_le_of_lt hh1a har
          have hinv : ∀ x ∈ rem, ∃ a b, (a, b) ∈ pairsConsec (h1 :: t') ∧ a < x ∧ x < b := by
            intro x hx
            obtain ⟨a', b', hab', ha', hb'⟩ := hin x (hmemrem x hx)
            rw [hpc] at hab'
            rcases List.mem_cons.mp hab' with heq' | htail'
            · exfalso
              obtain ⟨_, hb1'⟩ := Prod.mk.injEq a' b' h0 h1 ▸ heq'
              have hrx : r ≤ x := by
                rw [hrem] at hx
                rcases List.mem_cons.mp hx with he | ht
                · exact he ▸ le_refl r
                · exact le_of_lt ((List.sorted_cons.mp (hrem ▸ hremsort)).1 x ht)
              have : x < h1 := hb1' ▸ hb'
              exact absurd (lt_of_le_of_lt hrx this) (lt_asymm hh1r)
            · exact ⟨a', b', htail', ha', hb'⟩
          have herr := ih rem hsort' hremsort (by rw [hrem]; exact List.cons_ne_nil r rest') hinv
          simp only [assembleGo, hcr, herr]
          rfl

theorem assemble_error_of_nil_rows : ∀ (hs : List Nat), 2 ≤ hs.length →
    parssed_lines_assemble hs [] = .error () := by
  intro hs h2
  rcases hs with _ | ⟨h0, _ | ⟨h1, t⟩⟩
  · simp at h2
  · simp at h2
  · rfl

/-- C9: if the cursor consumes every settlement row (each row strictly inside
some consecutive header pair), or the row list is empty with at least two
headers, the next loop-condition evaluation indexes out of bounds and the
assembler raises; a normal return requires an unconsumed row lying in no
header interval (or fewer than two headers with no rows). -/
theorem grao_c9_assembler_out_of_bounds (hs rows : List Nat)
    (hh : List.Sorted (· < ·) hs) (hr : List.Sorted (· < ·) rows) :
    (rows ≠ [] → (∀ r ∈ rows, ∃ a b, (a, b) ∈ pairsConsec hs ∧ a < r ∧ r < b) →
      parssed_lines_assemble hs rows = .error ()) ∧
    (rows = [] → 2 ≤ hs.length → parssed_lines_assemble hs rows = .error ()) ∧
    (∀ l, parssed_lines_assemble hs rows = .ok l →
      (rows = [] ∧ hs.length ≤ 1) ∨
        ∃ r ∈ rows, ∀ a b, (a, b) ∈ pairsConsec hs → ¬(a < r ∧ r < b)) := by
  refine ⟨fun hne hin => assembleGo_error_of_all_inside hs rows hh hr hne hin,
          fun hnil h2 => by rw [hnil]; exact assemble_error_of_nil_rows hs h2,
          fun l hok => ?_⟩
  by_cases hne : rows = []
  · left
    refine ⟨hne, ?_⟩
    by_contra hlen
    push_neg at hlen
    have herr := assemble_error_of_nil_rows hs hlen
    rw [hne, herr] at hok
    cases hok
  · right
    by_contra hnone
    push_neg at hnone
    have herr := assembleGo_error_of_all_inside hs rows hh hr hne
      (fun r hrr => by
        obtain ⟨a, b, hab, hin⟩ := hnone r hrr
        exact ⟨a, b, hab, hin⟩)
    rw [parssed_lines_assemble, herr] at hok
    cases hok

theorem grao_c9_witness : parssed_lines_assemble [0, 10] [5] = .error () :=
  (grao_c9_assembler_out_of_bounds [0, 10] [5] (by decide) (by decide)).1
    (by decide)
    (fun r hr => by
      have hr5 : r = 5 := by simpa using hr
      subst hr5
      exact ⟨0, 10, by decide, by decide, by decide⟩)

/-- C1: at the spec's own boundary example — headers at positions [2, 10, 20]
and settlement rows at [1, 5, 15, 25] — the assembler attaches NOTHING (the
cursor jams on the leading row at position 1), instead of attaching row 5 to
the header at 2 and row 15 to the header at 10 as the specification states. -/
theorem grao_c1_assembler_example_empty :
    parssed_lines_assemble [2, 10, 20] [1, 5, 15, 25] = .ok [] := rfl

/-- C6 counterexample: a descriptor with neither date pattern.  Classification
returns `none` — the Python function falls off the end and returns `None`; no
`ClassificationError` is raised (no such exception exists in the program). -/
theorem grao_c6_counterexample : data_tuple_from_entry "abc".toList = none := by decide

/-- C6 amended: classifying a descriptor that contains neither a two-part
day-month/four-digit-year pattern nor a bare four-digit year returns no value
(`None`) and raises nothing. -/
theorem grao_c6_unmatched_descriptor_none (s : List Char)
    (h1 : hasDateGroup s = false) (h2 : findYearGroup s = none) :
    data_tuple_from_entry s = none := by
  simp [data_tuple_from_entry, h1, h2]

theorem grao_c6_witness : data_tuple_from_entry "table_xyz".toList = none :=
  grao_c6_unmatched_descriptor_none _ (by decide) (by decide)

/-- C7: the Old-format header parser is a two-state machine.  In the seeking
state a region match transitions to the municipality-seeking state buffering
the captured region and emits nothing; in the buffered state a municipality
match emits the combined header and resets; a line not matching the region
pattern (e.g. a municipality line seen before any region) leaves the machine
seeking and emits nothing. -/
theorem grao_c7_old_header_state_machine
    (searchReg searchMun : List Char → Option (List Char)) (line : List Char) :
    (∀ reg, searchReg line = some reg →
      parse_header_line_old searchReg searchMun none line = (some reg, none)) ∧
    (∀ reg mun, searchMun line = some mun →
      parse_header_line_old searchReg searchMun (some reg) line =
        (none, some ⟨fix_names (pyStrip reg), fix_names (pyStrip mun)⟩)) ∧
    (searchReg line = none →
      parse_header_line_old searchReg searchMun none line = (none, none)) := by
  refine ⟨fun reg h => ?_, fun reg mun h => ?_, fun h => ?_⟩
  · simp [parse_header_line_old, h]
  · simp [parse_header_line_old, h]
  · simp [parse_header_line_old, h]

theorem grao_c7_witness :
    parse_header_line_old (fun l => if l = ['R'] then some ['X'] else none)
        (fun l => if l = ['M'] then some ['Y'] else none) none ['R'] = (some ['X'], none) ∧
    parse_header_line_old (fun l => if l = ['R'] then some ['X'] else none)
        (fun l => if l = ['M'] then some ['Y'] else none) (some ['X']) ['M'] =
      (none, some ⟨fix_names (pyStrip ['X']), fix_names (pyStrip ['Y'])⟩) ∧
    parse_header_line_old (fun l => if l = ['R'] then some ['X'] else none)
        (fun l => if l = ['M'] then some ['Y'] else none) none ['M'] = (none, none) :=
  ⟨(grao_c7_old_header_state_machine _ _ ['R']).1 ['X'] (by decide),
   (grao_c7_old_header_state_machine _ _ ['M']).2.1 ['X'] ['Y'] (by decide),
   (grao_c7_old_header_state_machine _ _ ['M']).2.2 (by decide)⟩

/-- C5 counterexample: the name normalizer is NOT idempotent.  At
`АЛЕКСАНДЪР СТАМБОЛИ` the first application returns the table value
`АЛЕКСАНДЬР СТАМБОЛИЙСКИ`, whose stray `Ь` a second application rewrites
to `Ъ`, giving a different string. -/
theorem grao_c5_counterexample :
    fix_names (fix_names "АЛЕКСАНДЪР СТАМБОЛИ".toList) ≠
      fix_names "АЛЕКСАНДЪР СТАМБОЛИ".toList := by decide

/-- C5 amended: `fix_names` is idempotent at every input whose normalization
is not the correction-table value `АЛЕКСАНДЬР СТАМБОЛИЙСКИ` — the single
table value that a second pass changes again. -/
theorem grao_c5_idempotent_amended (x : List Char)
    (h : fix_names x ≠ "АЛЕКСАНДЬР СТАМБОЛИЙСКИ".toList) :
    fix_names (fix_names x) = fix_names x := by
  rcases hl : alookup (dehyphen (yerFix x)) namesTable with _ | v
  · have hx : fix_names x = dehyphen (yerFix x) := by
      rw [fix_names]; rw [hl]
    rw [hx]
    exact fix_names_stable_of_unlisted hl
  · have hx : fix_names x = v := by
      rw [fix_names]; rw [hl]
    rw [hx]
    exact namesTable_values_fixed (dehyphen (yerFix x), v) (alookup_mem hl) (hx ▸ h)

theorem grao_c5_witness :
    fix_names (fix_names "БОБОВДОЛ".toList) = fix_names "БОБОВДОЛ".toList :=
  grao_c5_idempotent_amended _ (by decide)

/-! ### Settlement Resolver matching (`mach_key_with_code`, source lines 308–353) -/

/-- Python `str.lower()` restricted to the alphabets the program uses:
ASCII letters and the basic Cyrillic uppercase range `А`–`Я` (U+0410–U+042F,
lowercased by adding 0x20). -/
def pyLowerChar (c : Char) : Char :=
  if ('A' ≤ c) && (c ≤ 'Z') then Char.ofNat (c.toNat + 32)
  else if ('А' ≤ c) && (c ≤ 'Я') then Char.ofNat (c.toNat + 32)
  else c

def pyLower (s : List Char) : List Char := s.map pyLowerChar

example : pyLower "СОФИЙСКА".toList = "софийска".toList := by decide
example : pyLower "Abc".toList = "abc".toList := by decide

/-- Is `needle` a prefix of `hay`? (helper for the substring test) -/
def startsWithList : List Char → List Char → Bool
  | _, [] => true
  | [], _ :: _ => false
  | a :: t, b :: u => (a == b) && startsWithList t u

/-- Python `hay.find(needle) != -1`: contiguous-substring containment. -/
def containsSub (hay needle : List Char) : Bool :=
  match hay with
  | [] => needle.isEmpty
  | _ :: t => startsWithList hay needle || containsSub t needle

example : containsSub "софия град".toList "фия".toList = true := by decide
example : containsSub "софия".toList "фия с".toList = false := by decide

/-- Python `s.split('.')` (never returns an empty list). -/
def pySplitDotGo (cur : List Char) : List Char → List (List Char)
  | [] => [cur.reverse]
  | c :: t => if c = '.' then cur.reverse :: pySplitDotGo [] t else pySplitDotGo (c :: cur) t

def pySplitDot (s : List Char) : List (List Char) := pySplitDotGo [] s

example : pySplitDot "с.ИВАНОВО".toList = ["с".toList, "ИВАНОВО".toList] := by decide
example : pySplitDot "ИВАНОВО".toList = ["ИВАНОВО".toList] := by decide

/-- `SettlementNamesData`: one historical name record of a candidate code.
`name1`/`name2`/`name3` are the first three components of the reversed
comma-split name tuple (region, municipality, abbreviated settlement); the
parse step keeps only records with more than two components, and the matcher
reads exactly these three.  `last` is the validity-end date as an ordinal
(later date = larger number; `datetime.max` for open-ended records). -/
structure SettlementNamesData : Type where
  name1 : List Char
  name2 : List Char
  name3 : List Char
  first : Nat
  last : Nat
deriving DecidableEq

/-- A settlement key: the normalized (region, municipality, settlement) triple. -/
abbrev SKey : Type := List Char × List Char × List Char

/-- The region part of the heuristic: `full_name[0].lower().find(needle) != -1`. -/
def regionTest (needle : List Char) (nd : SettlementNamesData) : Bool :=
  containsSub (pyLower nd.name1) needle

/-- The municipality and settlement parts of the heuristic:
`full_name[1].lower().find(key[1].lower()) != -1` and
`full_name[2].split('.')[-1].strip().lower() == key[2].lower()`. -/
def restTest (key : SKey) (nd : SettlementNamesData) : Bool :=
  containsSub (pyLower nd.name2) (pyLower key.2.1) &&
    (pyLower (pyStrip ((pySplitDot nd.name3).getLastD [])) == pyLower key.2.2)

/-- The full per-record test of `mach_key_with_code` (source lines 318–346):
main test first, then the three fixed region-name overrides tried only when
the main test fails and the key's region equals the trigger value. -/
def testRecord (key : SKey) (nd : SettlementNamesData) : Bool :=
  if regionTest (pyLower key.1) nd && restTest key nd then true
  else if pyLower key.1 == pyLower "СОФИЙСКА".toList then
    regionTest "софия".toList nd && restTest key nd
  else if pyLower key.1 == pyLower "СМОЛЯН".toList then
    regionTest "пловдивска".toList nd && restTest key nd
  else if pyLower key.1 == pyLower "ПАЗАРДЖИК".toList then
    regionTest "пазарджишки".toList nd && restTest key nd
  else false

/-- `mach_key_with_code` (source lines 308–353).  `data` is the parsed
candidate dictionary in its iteration order: per candidate code, the list of
historical name records.  All matches are appended to `result_list` as
(validity-end, (key, code)); the Python source then evaluates
`sorted(result_list)` WITHOUT using the sorted copy (the call's result is
discarded), and returns `result_list[-1][1]` — the LAST APPENDED match — when
the list is non-empty, `None` otherwise. -/
def mach_key_with_code (key : SKey) (data : List (List Char × List SettlementNamesData)) :
    Option (SKey × List Char) :=
  let result_list := data.foldl
    (fun acc p =>
      acc ++ (p.2.filter (fun nd => testRecord key nd)).map (fun nd => (nd.last, (key, p.1))))
    ([] : List (Nat × (SKey × List Char)))
  (result_list.getLast?).map Prod.snd

/-- C2: the resolver does NOT return the match with the latest validity-end.
Key (р, м, с) matches a record of code "A" with validity-end 100 (iterated
first) and a record of code "B" with validity-end 50 (iterated second); the
`sorted` call's result is discarded, so the code returns the last-appended
match "B" although the latest validity-end belongs to "A".  With no matching
record it returns `none` (no error). -/
theorem grao_c2_resolver_returns_last_match :
    mach_key_with_code ("р".toList, "м".toList, "с".toList)
      [("A".toList, [⟨"район р".toList, "мо м".toList, "с. С".toList, 0, 100⟩]),
       ("B".toList, [⟨"район р".toList, "мо м".toList, "с. С".toList, 0, 50⟩])] =
      some (("р".toList, "м".toList, "с".toList), "B".toList) ∧
    mach_key_with_code ("р".toList, "м".toList, "с".toList) [] = none := by
  constructor
  · rfl
  · rfl

/-! ### Resolver retry discipline (`disambiguate_data`, source lines 520–546) -/

/-- The nested try/except retry of `disambiguate_data` around one key's
resolution.  `attempt i` is the outcome of the (i+1)-th synchronous call of
the settlement-disambiguation pipeline (`.error ()` = the `ValueError` raised
by `fetch_raw_settlement_data` on a non-success status, `.ok v` = the pipeline
result, possibly `none` for "no match").  The result records the pipeline
outcome (or the uncaught final failure), the number of calls made, and the
total blocking delay (`time.sleep(10)`, `time.sleep(15)`, `time.sleep(20)`
between successive attempts). -/
def retryResolve (attempt : Nat → Except Unit (Option (List Char))) :
    Except Unit (Option (List Char)) × Nat × Nat :=
  match attempt 0 with
  | .ok v => (.ok v, 1, 0)
  | .error _ =>
    match attempt 1 with
    | .ok v => (.ok v, 2, 10)
    | .error _ =>
      match attempt 2 with
      | .ok v => (.ok v, 3, 10 + 15)
      | .error _ =>
        match attempt 3 with
        | .ok v => (.ok v, 4, 10 + 15 + 20)
        | .error e => (.error e, 4, 10 + 15 + 20)

/-- C4: three consecutive transport failures followed by a success return the
successful result after exactly 4 calls with blocking delays 10+15+20; four
consecutive failures propagate the error after the same 4 calls and delays. -/
theorem grao_c4_retry_schedule (attempt : Nat → Except Unit (Option (List Char)))
    (v : Option (List Char)) :
    (attempt 0 = .error () → attempt 1 = .error () → attempt 2 = .error () →
      attempt 3 = .ok v → retryResolve attempt = (.ok v, 4, 10 + 15 + 20)) ∧
    ((∀ i, i < 4 → attempt i = .error ()) →
      retryResolve attempt = (.error (), 4, 10 + 15 + 20)) := by
  constructor
  · intro h0 h1 h2 h3
    simp [retryResolve, h0, h1, h2, h3]
  · intro hall
    simp [retryResolve, hall 0 (by decide), hall 1 (by decide), hall 2 (by decide),
      hall 3 (by decide)]

theorem grao_c4_witness :
    retryResolve (fun i => if i < 3 then .error () else .ok (some "к".toList)) =
      (.ok (some "к".toList), 4, 10 + 15 + 20) ∧
    retryResolve (fun _ => .error ()) = (.error (), 4, 10 + 15 + 20) :=
  ⟨(grao_c4_retry_schedule (fun i => if i < 3 then .error () else .ok (some "к".toList))
      (some "к".toList)).1 rfl rfl rfl rfl,
   (grao_c4_retry_schedule (fun _ => .error ()) none).2 (fun _ _ => rfl)⟩

/-! ### Disambiguation Cache (`disambiguate_data`, source lines 498–548) -/

/-- The mutable state of the resolution loop: the two persisted mapping
directions (`triple_to_ekatte` and `ekatte_to_triple`, newest binding first),
the failure set, and the number of external service calls made. -/
structure DisState : Type where
  processed : List (SKey × List Char)
  reverse : List (List Char × SKey)
  failures : List SKey
  calls : Nat
deriving DecidableEq

/-- The resolve-and-update branch for one key pair `p` (normalized key,
original triple): one synchronous pipeline invocation; on success both mapping
directions are updated (and persisted immediately); on "no match" the key
joins the failure set.  `resolve` abstracts the settlement-disambiguation
pipeline outcome. -/
def disResolveKey (resolve : SKey → Option (List Char)) (st : DisState)
    (p : SKey × SKey) : DisState :=
  match resolve p.1 with
  | some code =>
    { processed := (p.1, code) :: st.processed
      reverse := (code, p.2) :: st.reverse
      failures := st.failures
      calls := st.calls + 1 }
  | none =>
    { processed := st.processed
      reverse := st.reverse
      failures := p.1 :: st.failures
      calls := st.calls + 1 }

/-- One iteration of the `for i, sdt in enumerate(sdt_list)` loop (source
lines 520–546): if the key is in `processed_sdts` AND its code is in
`reverse_dict`, skip with no service call; otherwise resolve. -/
def disambiguateStep (resolve : SKey → Option (List Char)) (st : DisState)
    (p : SKey × SKey) : DisState :=
  match alookup p.1 st.processed with
  | some code =>
    match alookup code st.reverse with
    | some _ => st
    | none => disResolveKey resolve st p
  | none => disResolveKey resolve st p

/-- The whole key loop. -/
def disambiguateRun (resolve : SKey → Option (List Char)) (st : DisState)
    (ks : List (SKey × SKey)) : DisState :=
  ks.foldl (disambiguateStep resolve) st

/-- The skip condition of source line 521: both mapping directions present. -/
def resolvedIn (st : DisState) (k : SKey) : Prop :=
  ∃ c, alookup k st.processed = some c ∧ (alookup c st.reverse).isSome

theorem disambiguateStep_skip {resolve : SKey → Option (List Char)} {st : DisState}
    {p : SKey × SKey} (h : resolvedIn st p.1) :
    disambiguateStep resolve st p = st := by
  obtain ⟨c, hc, hrev⟩ := h
  obtain ⟨v, hv⟩ := Option.isSome_iff_exists.mp hrev
  simp only [disambiguateStep, hc, hv]

theorem alookup_isSome_cons {α β : Type} [DecidableEq α] {c : α} {l : List (α × β)}
    (h : (alookup c l).isSome) (x : α) (y : β) :
    (alookup c ((x, y) :: l)).isSome := by
  by_cases hx : x = c
  · subst hx; rw [alookup_cons_self]; rfl
  · rw [alookup_cons_ne _ hx]; exact h

theorem resolvedIn_step {resolve : SKey → Option (List Char)} {st : DisState}
    {k : SKey} (p : SKey × SKey) (h : resolvedIn st k) :
    resolvedIn (disambiguateStep resolve st p) k := by
  by_cases hskip : resolvedIn st p.1
  · rw [disambiguateStep_skip hskip]; exact h
  · obtain ⟨c, hc, hrev⟩ := h
    have hstep : disambiguateStep resolve st p = disResolveKey resolve st p := by
      cases hl : alookup p.1 st.processed with
      | none => simp only [disambiguateStep, hl]
      | some code =>
        cases hr : alookup code st.reverse with
        | none => simp only [disambiguateStep, hl, hr]
        | some v => exact absurd ⟨code, hl, by rw [hr]; rfl⟩ hskip
    rw [hstep]
    cases hres : resolve p.1 with
    | none =>
      simp only [disResolveKey, hres]
      exact ⟨c, hc, hrev⟩
    | some code' =>
      simp only [disResolveKey, hres]
      by_cases hpk : p.1 = k
      · subst hpk
        exact ⟨code', alookup_cons_self _, by rw [alookup_cons_self]; rfl⟩
      · exact ⟨c, by rw [alookup_cons_ne _ hpk]; exact hc, alookup_isSome_cons hrev _ _⟩

theorem disambiguateStep_not_skip {resolve : SKey → Option (List Char)} {st : DisState}
    {p : SKey × SKey} (hskip : ¬resolvedIn st p.1) :
    disambiguateStep resolve st p = disResolveKey resolve st p := by
  cases hl : alookup p.1 st.processed with
  | none => simp only [disambiguateStep, hl]
  | some code =>
    cases hr : alookup code st.reverse with
    | none => simp only [disambiguateStep, hl, hr]
    | some v => exact absurd ⟨code, hl, by rw [hr]; rfl⟩ hskip

theorem disambiguateStep_resolves {resolve : SKey → Option (List Char)} {st : DisState}
    {p : SKey × SKey} (h : (resolve p.1).isSome) :
    resolvedIn (disambiguateStep resolve st p) p.1 := by
  by_cases hskip : resolvedIn st p.1
  · rw [disambiguateStep_skip hskip]; exact hskip
  · rw [disambiguateStep_not_skip hskip]
    obtain ⟨code, hres⟩ := Option.isSome_iff_exists.mp h
    simp only [disResolveKey, hres]
    exact ⟨code, alookup_cons_self _, by rw [alookup_cons_self]; rfl⟩

theorem resolvedIn_run {resolve : SKey → Option (List Char)} {k : SKey} :
    ∀ (ks : List (SKey × SKey)) {st : DisState}, resolvedIn st k →
      resolvedIn (disambiguateRun resolve st ks) k := by
  intro ks
  induction ks with
  | nil => intro st h; exact h
  | cons q t ih => intro st h; exact ih (resolvedIn_step q h)

theorem run_resolves_key {resolve : SKey → Option (List Char)} :
    ∀ (ks : List (SKey × SKey)) (st : DisState),
      ∀ p ∈ ks, (resolve p.1).isSome →
        resolvedIn (disambiguateRun resolve st ks) p.1 := by
  intro ks
  induction ks with
  | nil => intro st p hp; cases hp
  | cons q t ih =>
    intro st p hp hsome
    rcases List.mem_cons.mp hp with heq | hpt
    · subst heq
      exact resolvedIn_run t (disambiguateStep_resolves hsome)
    · exact ih (disambiguateStep resolve st q) p hpt hsome

theorem run_all_skip {resolve : SKey → Option (List Char)} :
    ∀ (ks : List (SKey × SKey)) (st : DisState),
      (∀ p ∈ ks, resolvedIn st p.1) → disambiguateRun resolve st ks = st := by
  intro ks
  induction ks with
  | nil => intro st _; rfl
  | cons q t ih =>
    intro st hall
    have hq : disambiguateStep resolve st q = st :=
      disambiguateStep_skip (hall q (List.mem_cons_self q t))
    show disambiguateRun resolve (disambiguateStep resolve st q) t = st
    rw [hq]
    exact ih st (fun p hp => hall p (List.mem_cons_of_mem _ hp))

/-- C3: a key present in both mapping directions is skipped with no service
call and no state change; a second run over the same key list, starting from
the state persisted by the first run, changes nothing — in particular it makes
zero external service calls — provided every key resolved successfully in the
first run; and even in a mixed run, re-processing any key that resolved
successfully in the first run is a no-op (no service call) after the first
run. -/
theorem grao_c3_cache_skip_and_resumability
    (resolve : SKey → Option (List Char)) (st : DisState) (ks : List (SKey × SKey)) :
    (∀ p : SKey × SKey, resolvedIn st p.1 → disambiguateStep resolve st p = st) ∧
    ((∀ p ∈ ks, (resolve p.1).isSome) →
      disambiguateRun resolve (disambiguateRun resolve st ks) ks =
        disambiguateRun resolve st ks) ∧
    ((∀ p ∈ ks, (resolve p.1).isSome) →
      (disambiguateRun resolve (disambiguateRun resolve st ks) ks).calls =
        (disambiguateRun resolve st ks).calls) ∧
    (∀ p ∈ ks, (resolve p.1).isSome →
      disambiguateStep resolve (disambiguateRun resolve st ks) p =
        disambiguateRun resolve st ks) := by
  refine ⟨fun p h => disambiguateStep_skip h, fun hall => ?_, fun hall => ?_,
    fun p hp hsome => disambiguateStep_skip (run_resolves_key ks st p hp hsome)⟩
  · exact run_all_skip ks _ (fun p hp => run_resolves_key ks st p hp (hall p hp))
  · rw [run_all_skip ks _ (fun p hp => run_resolves_key ks st p hp (hall p hp))]

theorem grao_c3_witness :
    disambiguateStep (fun _ => none)
      ⟨[(("а".toList, "б".toList, "в".toList), "10135".toList)],
       [("10135".toList, ("а".toList, "б".toList, "в".toList))], [], 0⟩
      (("а".toList, "б".toList, "в".toList), ("а".toList, "б".toList, "в".toList)) =
      ⟨[(("а".toList, "б".toList, "в".toList), "10135".toList)],
       [("10135".toList, ("а".toList, "б".toList, "в".toList))], [], 0⟩ ∧
    disambiguateRun (fun _ => some "10135".toList)
      (disambiguateRun (fun _ => some "10135".toList) ⟨[], [], [], 0⟩
        [(("а".toList, "б".toList, "в".toList), ("а".toList, "б".toList, "в".toList))])
      [(("а".toList, "б".toList, "в".toList), ("а".toList, "б".toList, "в".toList))] =
      disambiguateRun (fun _ => some "10135".toList) ⟨[], [], [], 0⟩
        [(("а".toList, "б".toList, "в".toList), ("а".toList, "б".toList, "в".toList))] :=
  ⟨(grao_c3_cache_skip_and_resumability (fun _ => none) _ []).1 _
      ⟨"10135".toList, by decide, by decide⟩,
   (grao_c3_cache_skip_and_resumability (fun _ => some "10135".toList) ⟨[], [], [], 0⟩
      [(("а".toList, "б".toList, "в".toList), ("а".toList, "б".toList, "в".toList))]).2.1
      (fun _ _ => rfl)⟩

/-! ### Period Merger (`disambiguate_data` lines 574–580, `combine_data` lines 586–607) -/

/-- `df.loc[~df.index.duplicated(keep='first')]`: keep, per key, only the first
row. -/
def dedupFirstAux {α β : Type} [DecidableEq α] (seen : List α) :
    List (α × β) → List (α × β)
  | [] => []
  | (c, v) :: t =>
    if c ∈ seen then dedupFirstAux seen t else (c, v) :: dedupFirstAux (c :: seen) t

def dedupFirst {α β : Type} [DecidableEq α] (l : List (α × β)) : List (α × β) :=
  dedupFirstAux [] l

theorem dedupFirstAux_sublist {α β : Type} [DecidableEq α] :
    ∀ (l : List (α × β)) (seen : List α), List.Sublist (dedupFirstAux seen l) l := by
  intro l
  induction l with
  | nil => intro seen; exact List.Sublist.refl []
  | cons p t ih =>
    intro seen
    cases p with
    | mk c v =>
      by_cases hc : c ∈ seen
      · simp only [dedupFirstAux, if_pos hc]
        exact (ih seen).cons (c, v)
      · simp only [dedupFirstAux, if_neg hc]
        exact (ih (c :: seen)).cons₂ (c, v)

theorem alookup_dedupFirstAux {α β : Type} [DecidableEq α] :
    ∀ (l : List (α × β)) (seen : List α) (k : α), k ∉ seen →
      alookup k (dedupFirstAux seen l) = alookup k l := by
  intro l
  induction l with
  | nil => intro seen k _; rfl
  | cons p t ih =>
    intro seen k hk
    cases p with
    | mk c v =>
      by_cases hc : c ∈ seen
      · have hck : c ≠ k := fun h => hk (h ▸ hc)
        simp only [dedupFirstAux, if_pos hc]
        rw [alookup_cons_ne _ hck]
        exact ih seen k hk
      · simp only [dedupFirstAux, if_neg hc]
        by_cases hck : c = k
        · subst hck
          rw [alookup_cons_self, alookup_cons_self]
        · rw [alookup_cons_ne _ hck, alookup_cons_ne _ hck]
          exact ih (c :: seen) k (fun h => by
            rcases List.mem_cons.mp h with he | hs
            · exact hck he.symm
            · exact hk hs)

theorem mem_keys_dedupFirstAux {α β : Type} [DecidableEq α] :
    ∀ (l : List (α × β)) (seen : List α) (x : α),
      x ∈ (dedupFirstAux seen l).map Prod.fst → x ∉ seen := by
  intro l
  induction l with
  | nil => intro seen x h; simp [dedupFirstAux] at h
  | cons p t ih =>
    intro seen x h
    cases p with
    | mk c v =>
      by_cases hc : c ∈ seen
      · simp only [dedupFirstAux, if_pos hc] at h
        exact ih seen x h
      · simp only [dedupFirstAux, if_neg hc, List.map_cons] at h
        rcases List.mem_cons.mp h with he | hs
        · exact he ▸ hc
        · intro hxs
          exact ih (c :: seen) x hs (List.mem_cons_of_mem _ hxs)

theorem nodup_keys_dedupFirstAux {α β : Type} [DecidableEq α] :
    ∀ (l : List (α × β)) (seen : List α),
      ((dedupFirstAux seen l).map Prod.fst).Nodup := by
  intro l
  induction l with
  | nil => intro seen; exact List.nodup_nil
  | cons p t ih =>
    intro seen
    cases p with
    | mk c v =>
      by_cases hc : c ∈ seen
      · simp only [dedupFirstAux, if_pos hc]
        exact ih seen
      · simp only [dedupFirstAux, if_neg hc, List.map_cons]
        exact List.nodup_cons.mpr
          ⟨fun hmem => mem_keys_dedupFirstAux t (c :: seen) c hmem (List.mem_cons_self c seen),
           ih (c :: seen)⟩

/-- De-duplication of a plain key list (the union of the period indexes). -/
def dedupCodesAux {α : Type} [DecidableEq α] (seen : List α) : List α → List α
  | [] => []
  | c :: t => if c ∈ seen then dedupCodesAux seen t else c :: dedupCodesAux (c :: seen) t

theorem mem_dedupCodesAux {α : Type} [DecidableEq α] :
    ∀ (l : List α) (seen : List α) (x : α),
      x ∈ dedupCodesAux seen l ↔ x ∈ l ∧ x ∉ seen := by
  intro l
  induction l with
  | nil => intro seen x; simp [dedupCodesAux]
  | cons c t ih =>
    intro seen x
    by_cases hc : c ∈ seen
    · simp only [dedupCodesAux, if_pos hc, ih, List.mem_cons]
      constructor
      · rintro ⟨hx, hs⟩; exact ⟨Or.inr hx, hs⟩
      · rintro ⟨hx | hx, hs⟩
        · exact absurd (hx ▸ hc) hs
        · exact ⟨hx, hs⟩
    · simp only [dedupCodesAux, if_neg hc, List.mem_cons, ih]
      constructor
      · rintro (rfl | ⟨hx, hs⟩)
        · exact ⟨Or.inl rfl, hc⟩
        · exact ⟨Or.inr hx, fun hxs => hs (Or.inr hxs)⟩
      · rintro ⟨rfl | hx, hs⟩
        · exact Or.inl rfl
        · by_cases hxc : x = c
          · exact Or.inl hxc
          · exact Or.inr ⟨hx, fun hm => by
              rcases hm with he | hsm
              · exact hxc he
              · exact hs hsm⟩

/-- `int()` on the raw digit text captured by the settlement patterns. -/
def pyInt (s : List Char) : Nat := s.foldl (fun n c => n * 10 + digitVal c) 0

/-- The union of the period indexes, in order of appearance (one key per code:
a pandas index after the outer merge). -/
def allCodes {α : Type} (tables : List (List (List Char × α))) : List (List Char) :=
  dedupCodesAux [] (tables.foldr (fun t acc => t.map Prod.fst ++ acc) [])

theorem mem_foldrKeys {α : Type} :
    ∀ (tables : List (List (List Char × α))) (c : List Char),
      c ∈ tables.foldr (fun t acc => t.map Prod.fst ++ acc) [] ↔
        ∃ t ∈ tables, c ∈ t.map Prod.fst := by
  intro tables c
  induction tables with
  | nil =>
    constructor
    · intro h; exact (List.not_mem_nil c h).elim
    · rintro ⟨t, ht, _⟩; exact (List.not_mem_nil t ht).elim
  | cons t ts ih =>
    simp only [List.foldr_cons, List.mem_append, ih, List.mem_cons]
    constructor
    · rintro (h | ⟨u, hu, hc⟩)
      · exact ⟨t, Or.inl rfl, h⟩
      · exact ⟨u, Or.inr hu, hc⟩
    · rintro ⟨u, hu | hu, hc⟩
      · exact Or.inl (hu ▸ hc)
      · exact Or.inr ⟨u, hu, hc⟩

theorem mem_allCodes {α : Type} (tables : List (List (List Char × α))) (c : List Char) :
    c ∈ allCodes tables ↔ ∃ t ∈ tables, c ∈ t.map Prod.fst := by
  rw [allCodes, mem_dedupCodesAux, mem_foldrKeys]
  exact and_iff_left (List.not_mem_nil c)

/-- One period's column pair for one code in the merged table: the parsed
(permanent, current) counts, or (0, 0) where the period has no row for the
code (`fillna(0)` after the outer merge, then `astype(int)`). -/
def combineColumn (c : List Char) (t : List (List Char × (List Char × List Char))) :
    Nat × Nat :=
  match alookup c t with
  | some pq => (pyInt pq.1, pyInt pq.2)
  | none => (0, 0)

/-- `combine_data` (source lines 586–607): outer merge of the per-period
tables on the `ekatte` index, `fillna(0)`, and `astype(int)` on every count
column. -/
def combine_data (tables : List (List (List Char × (List Char × List Char)))) :
    List (List Char × List (Nat × Nat)) :=
  (allCodes tables).map fun c => (c, tables.map (combineColumn c))

example :
    combine_data [[("A".toList, ("1".toList, "7".toList)), ("B".toList, ("2".toList, "8".toList))],
                  [("B".toList, ("3".toList, "9".toList)), ("C".toList, ("4".toList, "5".toList))]] =
      [("A".toList, [(1, 7), (0, 0)]),
       ("B".toList, [(2, 8), (3, 9)]),
       ("C".toList, [(0, 0), (4, 5)])] := by decide

/-- C8: the period merger outer-unions the codes of all period tables; a code
absent from a period receives (0, 0) in that period's column pair, a present
code its integer-coerced counts; and within one period's table `dedupFirst`
keeps only the first row per code (identical lookups, a sub-list of the rows,
duplicate-free keys). -/
theorem grao_c8_merge_zero_fill_dedup
    (tables : List (List (List Char × (List Char × List Char)))) (c : List Char) :
    (c ∈ allCodes tables ↔ ∃ t ∈ tables, c ∈ t.map Prod.fst) ∧
    (∀ row, (c, row) ∈ combine_data tables →
      ∀ (i : Nat) (t : List (List Char × (List Char × List Char))), tables[i]? = some t →
        (alookup c t = none → row[i]? = some (0, 0)) ∧
        (∀ pq, alookup c t = some pq → row[i]? = some (pyInt pq.1, pyInt pq.2))) ∧
    (∀ (vt : List (List Char × (List Char × List Char))),
      (∀ k, alookup k (dedupFirst vt) = alookup k vt) ∧
      List.Sublist (dedupFirst vt) vt ∧ ((dedupFirst vt).map Prod.fst).Nodup) := by
  refine ⟨mem_allCodes tables c, fun row hrow i t hit => ?_,
    fun vt => ⟨fun k => alookup_dedupFirstAux vt [] k (List.not_mem_nil k),
      dedupFirstAux_sublist vt [], nodup_keys_dedupFirstAux vt []⟩⟩
  rw [combine_data] at hrow
  obtain ⟨c', _, heq⟩ := List.mem_map.mp hrow
  rw [Prod.mk.injEq] at heq
  obtain ⟨hcc, hrr⟩ := heq
  subst hcc
  subst hrr
  rw [List.getElem?_map, hit, Option.map_some']
  constructor
  · intro hnone
    rw [combineColumn, hnone]
  · intro pq hsome
    rw [combineColumn, hsome]

theorem grao_c8_witness :
    ([(1, 7), (0, 0)] : List (Nat × Nat))[1]? = some (0, 0) ∧
    ((dedupFirst [("B".toList, ("2".toList, "8".toList)),
                  ("B".toList, ("3".toList, "9".toList))]).map Prod.fst).Nodup :=
  ⟨((grao_c8_merge_zero_fill_dedup
      [[("A".toList, ("1".toList, "7".toList)), ("B".toList, ("2".toList, "8".toList))],
       [("B".toList, ("3".toList, "9".toList)), ("C".toList, ("4".toList, "5".toList))]]
      "A".toList).2.1
      [(1, 7), (0, 0)] (by decide) 1
      [("B".toList, ("3".toList, "9".toList)), ("C".toList, ("4".toList, "5".toList))]
      rfl).1 (by decide),
   ((grao_c8_merge_zero_fill_dedup [] "A".toList).2.2
      [("B".toList, ("2".toList, "8".toList)), ("B".toList, ("3".toList, "9".toList))]).2.2⟩

/-! ### Dropping unresolved rows (`disambiguate_data`, source lines 550–584) -/

/-- One row of a per-period table before disambiguation:
(region, municipality, settlement, permanent, current), all raw text. -/
structure FullRow : Type where
  region : List Char
  municipality : List Char
  settlement : List Char
  permanent : List Char
  current : List Char
deriving DecidableEq

/-- The normalized lookup key built by `updt` (source lines 563–565):
`(fix_names(x[0].strip()), fix_names(x[1].strip()),
fix_names(x[2].split('.')[1].strip()))`.  Settlement names are always of the
form `ABBR. NAME` (reassembled by `parse_data_line`), so `split('.')[1]`
always exists; `getD` totalizes the access. -/
def normKeyRow (r : FullRow) : SKey :=
  (fix_names (pyStrip r.region),
   fix_names (pyStrip r.municipality),
   fix_names (pyStrip ((pySplitDot r.settlement).getD 1 [])))

/-- The per-period filtering of `disambiguate_data` (source lines 550–580):
attach each row's resolved code, drop rows whose key has no code
(`dropna` on the appended column), index by code, and keep only the first row
per code. -/
def disambiguateTable (processed : List (SKey × List Char)) (rows : List FullRow) :
    List (List Char × FullRow) :=
  dedupFirst (rows.filterMap
    (fun r => (alookup (normKeyRow r) processed).map (fun c => (c, r))))

theorem mem_disambiguateTable {processed : List (SKey × List Char)}
    {rows : List FullRow} {p : List Char × FullRow}
    (hp : p ∈ disambiguateTable processed rows) :
    ∃ r ∈ rows, alookup (normKeyRow r) processed = some p.1 ∧ p.2 = r := by
  have hsub := (dedupFirstAux_sublist _ []).subset hp
  obtain ⟨r, hr, hf⟩ := List.mem_filterMap.mp hsub
  cases ho : alookup (normKeyRow r) processed with
  | none => rw [ho] at hf; cases hf
  | some cc =>
    rw [ho, Option.map_some'] at hf
    injection hf with hf
    subst hf
    exact ⟨r, hr, ho, rfl⟩

/-- C10: every row kept by the per-period disambiguation step carries the code
that the key→code mapping assigns to the row's normalized key; a row whose
normalized key is absent from the mapping (a soft failure) appears in no
per-period output; and every code of the combined union originates from some
row whose key the mapping resolves. -/
theorem grao_c10_unresolved_rows_dropped
    (processed : List (SKey × List Char)) (rowTables : List (List FullRow)) :
    (∀ (rows : List FullRow), ∀ p ∈ disambiguateTable processed rows,
      alookup (normKeyRow p.2) processed = some p.1) ∧
    (∀ (rows : List FullRow) (r : FullRow), r ∈ rows →
      alookup (normKeyRow r) processed = none →
      ∀ cd, (cd, r) ∉ disambiguateTable processed rows) ∧
    (∀ cd, cd ∈ allCodes (rowTables.map (disambiguateTable processed)) →
      ∃ rows ∈ rowTables, ∃ r ∈ rows, alookup (normKeyRow r) processed = some cd) := by
  refine ⟨fun rows p hp => ?_, fun rows r _ hnone cd hmem => ?_, fun cd hcd => ?_⟩
  · obtain ⟨r, _, ho, hpr⟩ := mem_disambiguateTable hp
    rw [hpr]
    exact ho
  · obtain ⟨r', _, ho, hpr⟩ := mem_disambiguateTable hmem
    cases hpr
    rw [hnone] at ho
    cases ho
  · obtain ⟨t, ht, hct⟩ := (mem_allCodes _ cd).mp hcd
    obtain ⟨rows, hrows, hteq⟩ := List.mem_map.mp ht
    obtain ⟨p, hpt, hpc⟩ := List.mem_map.mp hct
    subst hteq
    obtain ⟨r, hr, ho, hpr⟩ := mem_disambiguateTable hpt
    exact ⟨rows, hrows, r, hr, by rw [ho, hpc]⟩

theorem grao_c10_witness :
    alookup (normKeyRow ⟨"А".toList, "Б".toList, "с.В".toList, "1".toList, "2".toList⟩)
      [(("А".toList, "Б".toList, "В".toList), "555".toList)] = some "555".toList :=
  (grao_c10_unresolved_rows_dropped
      [(("А".toList, "Б".toList, "В".toList), "555".toList)] []).1
    [⟨"А".toList, "Б".toList, "с.В".toList, "1".toList, "2".toList⟩]
    ("555".toList, ⟨"А".toList, "Б".toList, "с.В".toList, "1".toList, "2".toList⟩)
    (by decide)
